import Mathlib

/-
Verification of the directive template engine (template.go of the vue
package).  Go strings are modelled as lists of characters (the source
manipulates ASCII markup; one byte corresponds to one character).  Each
definition mirrors one function of the source file; external
collaborators (the markup parser and the mustache substitution engine)
are passed in as parameters, following the boundary description of the
specification.
-/

/-- A Go string, modelled as its list of characters. -/
abbrev GoStr := List Char

/-- Characters of a Lean string literal, used to write Go string constants. -/
def gostr (s : String) : GoStr := s.data

/-- Go strings.HasPrefix, first argument is the pattern.  pre_of pat s
decides whether pat is a textual prefix of s. -/
def pre_of : GoStr → GoStr → Bool
  | [], _ => true
  | _ :: _, [] => false
  | a :: pa, b :: sb => a == b && pre_of pa sb

/-- startsWith s pat: s has pat as a textual prefix (strings.HasPrefix). -/
def startsWith (s pat : GoStr) : Bool := pre_of pat s

/-- Whether pat occurs as a contiguous substring of s. -/
def hasSub (pat : GoStr) : GoStr → Bool
  | [] => pre_of pat []
  | c :: rest => pre_of pat (c :: rest) || hasSub pat rest

/-- Whitespace test used by Go TrimSpace (ASCII portion). -/
def isSp (c : Char) : Bool :=
  c == ' ' || c == '\t' || c == '\n' || c == '\r'

/-- Go strings.TrimSpace and bytes.TrimSpace. -/
def trimSpace (s : GoStr) : GoStr :=
  (((s.dropWhile isSp).reverse).dropWhile isSp).reverse

/-- Worker for goSplit: acc is the reversed current group, the Nat is
the number of pattern characters still to be skipped after a match. -/
def splitAux (pat : GoStr) (acc : GoStr) : Nat → GoStr → List GoStr
  | _k+1, [] => [acc.reverse]
  | k+1, _c :: rest => splitAux pat acc k rest
  | 0, [] => [acc.reverse]
  | 0, c :: rest =>
    if pre_of pat (c :: rest) then
      acc.reverse :: splitAux pat [] (pat.length - 1) rest
    else
      splitAux pat (c :: acc) 0 rest

/-- Go strings.Split(s, pat), splitting on every occurrence of pat. -/
def goSplit (pat s : GoStr) : List GoStr :=
  if pat = [] then s.map (fun c => [c]) else splitAux pat [] 0 s

/-- Worker for goReplace, same skip-counter scheme as splitAux. -/
def replaceAux (pat rep : GoStr) : Nat → GoStr → GoStr
  | _k+1, [] => []
  | k+1, _c :: rest => replaceAux pat rep k rest
  | 0, [] => []
  | 0, c :: rest =>
    if pre_of pat (c :: rest) then
      rep ++ replaceAux pat rep (pat.length - 1) rest
    else
      c :: replaceAux pat rep 0 rest

/-- Go bytes.Replace with an empty pattern: the replacement is inserted
at the beginning and after every character. -/
def insertEvery (rep : GoStr) : GoStr → GoStr
  | [] => rep
  | c :: rest => rep ++ c :: insertEvery rep rest

/-- Go bytes.Replace(s, pat, rep, -1): every occurrence replaced. -/
def goReplace (pat rep s : GoStr) : GoStr :=
  if pat = [] then insertEvery rep s else replaceAux pat rep 0 s

/-- Decimal digit character. -/
def digitChar : Nat → Char
  | 0 => '0' | 1 => '1' | 2 => '2' | 3 => '3' | 4 => '4'
  | 5 => '5' | 6 => '6' | 7 => '7' | 8 => '8' | _ => '9'

/-- Numeric value of a decimal digit character. -/
def digitVal (c : Char) : Nat := c.toNat - 48

/-- Fuel-indexed decimal printer (most significant digit first). -/
def natCharsAux : Nat → Nat → GoStr
  | 0, _ => []
  | f+1, n =>
    if n < 10 then [digitChar n]
    else natCharsAux f (n / 10) ++ [digitChar (n % 10)]

/-- Decimal representation of a natural number, as fmt.Sprintf with a
percent-d verb produces for the loop counter. -/
def natChars (n : Nat) : GoStr := natCharsAux (n + 1) n

/-- Left inverse of natChars: read a decimal string back. -/
def charsNat (s : GoStr) : Nat := s.foldl (fun a c => a * 10 + digitVal c) 0

/-- The dynamically typed values a data context can hold: strings,
booleans, ordered sequences, and the bytes produced when reflect
indexes into a Go string.  This is the modelled value universe of the
map from field names to interface values. -/
inductive Val where
  | str (s : GoStr)
  | bool (b : Bool)
  | byte (n : Nat)
  | seq (l : List Val)

/-- An html attribute: a key and a value. -/
structure Attr where
  key : GoStr
  val : GoStr
deriving DecidableEq

/-- An html node: a text node or an element with a tag, an ordered
attribute list and an ordered child list (html.Node restricted to the
node types the engine distinguishes). -/
inductive HNode where
  | text (s : GoStr)
  | elem (tag : GoStr) (attrs : List Attr) (children : List HNode)

mutual
def valDecEq : (a b : Val) → Decidable (a = b)
  | .str s, .str t =>
    match decEq s t with
    | isTrue h => isTrue (by rw [h])
    | isFalse h => isFalse (fun hh => h (by cases hh; rfl))
  | .bool s, .bool t =>
    match decEq s t with
    | isTrue h => isTrue (by rw [h])
    | isFalse h => isFalse (fun hh => h (by cases hh; rfl))
  | .byte s, .byte t =>
    match decEq s t with
    | isTrue h => isTrue (by rw [h])
    | isFalse h => isFalse (fun hh => h (by cases hh; rfl))
  | .seq s, .seq t =>
    match valListDecEq s t with
    | isTrue h => isTrue (by rw [h])
    | isFalse h => isFalse (fun hh => h (by cases hh; rfl))
  | .str _, .bool _ => isFalse (fun h => Val.noConfusion h)
  | .str _, .byte _ => isFalse (fun h => Val.noConfusion h)
  | .str _, .seq _ => isFalse (fun h => Val.noConfusion h)
  | .bool _, .str _ => isFalse (fun h => Val.noConfusion h)
  | .bool _, .byte _ => isFalse (fun h => Val.noConfusion h)
  | .bool _, .seq _ => isFalse (fun h => Val.noConfusion h)
  | .byte _, .str _ => isFalse (fun h => Val.noConfusion h)
  | .byte _, .bool _ => isFalse (fun h => Val.noConfusion h)
  | .byte _, .seq _ => isFalse (fun h => Val.noConfusion h)
  | .seq _, .str _ => isFalse (fun h => Val.noConfusion h)
  | .seq _, .bool _ => isFalse (fun h => Val.noConfusion h)
  | .seq _, .byte _ => isFalse (fun h => Val.noConfusion h)
def valListDecEq : (a b : List Val) → Decidable (a = b)
  | [], [] => isTrue rfl
  | [], _ :: _ => isFalse (fun h => List.noConfusion h)
  | _ :: _, [] => isFalse (fun h => List.noConfusion h)
  | x :: xs, y :: ys =>
    match valDecEq x y, valListDecEq xs ys with
    | isTrue h1, isTrue h2 => isTrue (by rw [h1, h2])
    | isFalse h1, _ => isFalse (fun hh => h1 (by cases hh; rfl))
    | _, isFalse h2 => isFalse (fun hh => h2 (by cases hh; rfl))
end

instance : DecidableEq Val := valDecEq

mutual
def nodeDecEq : (a b : HNode) → Decidable (a = b)
  | .text s, .text t =>
    match decEq s t with
    | isTrue h => isTrue (by rw [h])
    | isFalse h => isFalse (fun hh => h (by cases hh; rfl))
  | .text _, .elem _ _ _ => isFalse (fun h => HNode.noConfusion h)
  | .elem _ _ _, .text _ => isFalse (fun h => HNode.noConfusion h)
  | .elem t1 a1 c1, .elem t2 a2 c2 =>
    match decEq t1 t2, decEq a1 a2, forestDecEq c1 c2 with
    | isTrue h1, isTrue h2, isTrue h3 => isTrue (by rw [h1, h2, h3])
    | isFalse h1, _, _ => isFalse (fun hh => h1 (by cases hh; rfl))
    | _, isFalse h2, _ => isFalse (fun hh => h2 (by cases hh; rfl))
    | _, _, isFalse h3 => isFalse (fun hh => h3 (by cases hh; rfl))
def forestDecEq : (a b : List HNode) → Decidable (a = b)
  | [], [] => isTrue rfl
  | [], _ :: _ => isFalse (fun h => List.noConfusion h)
  | _ :: _, [] => isFalse (fun h => List.noConfusion h)
  | x :: xs, y :: ys =>
    match nodeDecEq x y, forestDecEq xs ys with
    | isTrue h1, isTrue h2 => isTrue (by rw [h1, h2])
    | isFalse h1, _ => isFalse (fun hh => h1 (by cases hh; rfl))
    | _, isFalse h2 => isFalse (fun hh => h2 (by cases hh; rfl))
end

instance : DecidableEq HNode := nodeDecEq

/-- The two callbacks the engine registers with the event subsystem:
the built-in two-way binding of the model directive and the method
dispatcher of the on directive. -/
inductive Handler where
  | vModel
  | vOn
deriving DecidableEq

/-- Errors of the engine.  Every must call of the source aborts the
whole execution; outOfFuel is the bookkeeping result of the fuel-indexed
driver, and indexOutOfRange models a Go slice index panic. -/
inductive Err where
  | unknownDirective (typ : GoStr)
  | unknownDataField (field : GoStr)
  | notString (field : GoStr)
  | sliceNotFound (field : GoStr)
  | notSequence (field : GoStr)
  | indexOutOfRange
  | interpolation (s : GoStr)
  | outOfFuel
deriving DecidableEq

/-- The data context: field names mapped to values.  The Go map is
modelled as an association list where a later write is consed on the
front, so lookup of the first match sees the latest write. -/
abbrev Ctx := List (GoStr × Val)

/-- Go map lookup data of a field name. -/
def ctxLookup (ctx : Ctx) (k : GoStr) : Option Val :=
  (ctx.find? (fun p => p.1 == k)).map (fun p => p.2)

/-- State of one template execution: the shared data context, the
monotonic id counter of the template, and the event listeners
registered so far (addEventListener boundary calls). -/
structure St where
  ctx : Ctx
  id : Nat
  listeners : List (GoStr × Handler)
deriving DecidableEq

/-- External collaborators, per the boundary description: parseHTML
parses a markup fragment into nodes (used by the html directive) and
render is the mustache substitution engine (used by the text pass). -/
structure Boundary where
  parseHTML : GoStr → List HNode
  render : Ctx → GoStr → Except Err GoStr

def vPre : GoStr := gostr "v-"
def vBindT : GoStr := gostr "v-bind"
def vForT : GoStr := gostr "v-for"
def vHtmlT : GoStr := gostr "v-html"
def vIfT : GoStr := gostr "v-if"
def vModelT : GoStr := gostr "v-model"
def vOnT : GoStr := gostr "v-on"
def colonTok : GoStr := [':']
def inTok : GoStr := ['i', 'n']

/-- The fixed directive priority list attrOrder of the source. -/
def attrOrderL : List GoStr := [vForT, vIfT, vModelT, vOnT, vBindT, vHtmlT]

/-- Attribute list of a node (empty for a text node). -/
def attrsOf : HNode → List Attr
  | .text _ => []
  | .elem _ a _ => a

/-- Append an attribute at the end of the attribute list of a node. -/
def appendAttr : HNode → Attr → HNode
  | .text s, _ => .text s
  | .elem t a c, attr => .elem t (a ++ [attr]) c

/-- Append parsed nodes at the end of the child list of a node. -/
def appendChildren : HNode → List HNode → HNode
  | .text s, _ => .text s
  | .elem t a c, ns => .elem t a (c ++ ns)

/-- Go strings.Title restricted to the single-word prop keys the bind
directive passes it: the first letter is capitalized. -/
def goTitle : GoStr → GoStr
  | [] => []
  | c :: rest => c.toUpper :: rest

/-- Space-joined elements, used by goFormat on sequences. -/
def joinSp : List GoStr → GoStr
  | [] => []
  | [s] => s
  | s :: rest => s ++ ' ' :: joinSp rest

mutual
/-- fmt.Sprintf with a percent-v verb on a context value: strings
verbatim, booleans as true or false, bytes and slices in the default
Go notation. -/
def goFormat : Val → GoStr
  | .str s => s
  | .bool true => gostr "true"
  | .bool false => gostr "false"
  | .byte n => natChars n
  | .seq l => '[' :: joinSp (goFormatList l) ++ [']']
/-- goFormat mapped over a list of values. -/
def goFormatList : List Val → List GoStr
  | [] => []
  | v :: vs => goFormat v :: goFormatList vs
end

mutual
/-- Textual loop-variable substitution of the for directive: the source
serializes the node, replaces every occurrence of the variable name in
the markup bytes, and reparses.  Since Serialize round-trips tag,
attribute and child order exactly, the byte-level replacement is
modelled component-wise on the node: tag, attribute keys, attribute
values and text content. -/
def renameNode (pat rep : GoStr) : HNode → HNode
  | .text s => .text (goReplace pat rep s)
  | .elem t a cs =>
    .elem (goReplace pat rep t)
      (a.map (fun at0 => Attr.mk (goReplace pat rep at0.key) (goReplace pat rep at0.val)))
      (renameForest pat rep cs)
/-- renameNode mapped over a child list. -/
def renameForest (pat rep : GoStr) : List HNode → List HNode
  | [] => []
  | n :: ns => renameNode pat rep n :: renameForest pat rep ns
end

/-- orderAttrs: attributes matching a known directive prefix first, in
the fixed priority order, then the attributes without the directive
prefix in their original relative order. -/
def orderAttrs (attrs : List Attr) : List Attr :=
  if attrs.length = 0 then attrs
  else
    (attrOrderL.flatMap (fun p => attrs.filter (fun a => startsWith a.key p)))
      ++ attrs.filter (fun a => !(startsWith a.key vPre))

/-- deleteAttr: remove the attribute at index i, preserving order. -/
def deleteAttr (attrs : List Attr) (i : Nat) : List Attr :=
  attrs.take i ++ attrs.drop (i + 1)

/-- executeAttrBind.  sub is the optional subcomponent with its declared
prop names; a prop write only touches the (external) prop map, so the
node is returned unchanged in that branch.  A boolean false suppresses
the attribute; any other value is formatted and appended. -/
def executeAttrBind (sub : Option (List GoStr)) (key value : GoStr) (data : Ctx)
    (node : HNode) : Except Err HNode :=
  match ctxLookup data value with
  | none => .error (.unknownDataField value)
  | some field =>
    let prop := goTitle key
    if (match sub with | some props => props.contains prop | none => false) then
      .ok node
    else
      match field with
      | .bool false => .ok node
      | _ => .ok (appendAttr node (Attr.mk key (goFormat field)))

/-- The reflect view of a value as an ordered sequence: slices yield
their elements, strings yield their bytes (reflect Len and Index are
defined on both); anything else makes reflect panic. -/
def seqVals : Val → Option (List Val)
  | .seq l => some l
  | .str s => some (s.map (fun c => Val.byte c.toNat))
  | _ => none

/-- The split-and-trim of the for expression: pieces of the value split
on the literal token in, first two pieces trimmed.  none models the Go
index panic when no separator occurs. -/
def forSplit (value : GoStr) : Option (GoStr × GoStr) :=
  match goSplit inTok value with
  | v0 :: v1 :: _ => some (trimSpace v0, trimSpace v1)
  | _ => none

/-- One pass of the expansion loop of the for directive: for each
element, generate the synthetic key from the variable name and the
counter, bind it in the context, and produce a renamed copy of the
node.  Returns the final counter, the final context and the copies in
iteration order. -/
def forLoop (name : GoStr) (node : HNode) : Nat → Ctx → List Val → Nat × Ctx × List HNode
  | id, ctx, [] => (id, ctx, [])
  | id, ctx, v :: vs =>
    let key := name ++ natChars id
    let copy := renameNode name key node
    let r := forLoop name node (id + 1) ((key, v) :: ctx) vs
    (r.1, r.2.1, copy :: r.2.2)

/-- executeAttrFor.  The node passed in already has the for attribute
deleted.  Errors: missing separator or an empty expansion reproduce the
Go slice index panics, an absent field is the designated slice not
found error, a non-sequence value makes reflect panic. -/
def executeAttrFor (st : St) (value : GoStr) (node : HNode) :
    Except Err (St × List HNode) :=
  match forSplit value with
  | none => .error .indexOutOfRange
  | some (name, field) =>
    match ctxLookup st.ctx field with
    | none => .error (.sliceNotFound field)
    | some v =>
      match seqVals v with
      | none => .error (.notSequence field)
      | some vals =>
        let r := forLoop name node st.id st.ctx vals
        match r.2.2 with
        | [] => .error .indexOutOfRange
        | copies => .ok ({ st with id := r.1, ctx := r.2.1 }, copies)

/-- executeAttrHtml: look up a string field and append the parsed
fragment as children. -/
def executeAttrHtml (ext : Boundary) (field : GoStr) (data : Ctx) (node : HNode) :
    Except Err HNode :=
  match ctxLookup data field with
  | none => .error (.unknownDataField field)
  | some v =>
    match v with
    | .str s => .ok (appendChildren node (ext.parseHTML s))
    | _ => .error (.notString field)

/-- Result of dispatching one directive: either the node survives with
possibly changed state, or it was structurally replaced by a list of
nodes and traversal resumes at the head of that list (or, for an empty
list, at the former next sibling). -/
inductive AttrRes where
  | cont (st : St) (node : HNode)
  | replaced (st : St) (repl : List HNode)

/-- executeAttrIf: keep the node exactly when the field is present with
boolean value true; otherwise remove it (replacement by the empty list,
traversal resumes at the former next sibling). -/
def executeAttrIf (st : St) (field : GoStr) (node : HNode) : AttrRes :=
  match ctxLookup st.ctx field with
  | some (.bool true) => .cont st node
  | _ => .replaced st []

/-- executeAttrModel, kept in source order: the input marker attribute
is appended and the two-way handler registered first, then the field is
looked up; the value attribute is appended only after both checks.
The third component is the error must receives, if any. -/
def executeAttrModel (st : St) (field : GoStr) (node : HNode) :
    St × HNode × Option Err :=
  let node1 := appendAttr node (Attr.mk (gostr "input") field)
  let st1 := { st with listeners := st.listeners ++ [(gostr "input", Handler.vModel)] }
  match ctxLookup st1.ctx field with
  | none => (st1, node1, some (.unknownDataField field))
  | some (.str s) => (st1, appendAttr node1 (Attr.mk (gostr "value") s), none)
  | some _ => (st1, node1, some (.notString field))

/-- executeAttrOn: append the event binding attribute and register the
method dispatcher for the event. -/
def executeAttrOn (st : St) (typ method : GoStr) (node : HNode) : St × HNode :=
  ({ st with listeners := st.listeners ++ [(typ, Handler.vOn)] },
   appendAttr node (Attr.mk typ method))

/-- executeAttr: split the key on the colon into kind and sub-key and
dispatch.  The node passed in already has the attribute deleted.  sub
is the optional subcomponent binding target for bind. -/
def executeAttr (ext : Boundary) (st : St) (node : HNode) (sub : Option (List GoStr))
    (attr : Attr) : Except Err AttrRes :=
  let vals := goSplit colonTok attr.key
  let typ := vals.headD []
  let part := match vals with | _ :: p :: _ => p | _ => []
  if typ = vBindT then
    (executeAttrBind sub part attr.val st.ctx node).map (fun n => .cont st n)
  else if typ = vForT then
    (executeAttrFor st attr.val node).map (fun r => .replaced r.1 r.2)
  else if typ = vHtmlT then
    (executeAttrHtml ext attr.val st.ctx node).map (fun n => .cont st n)
  else if typ = vIfT then
    .ok (executeAttrIf st attr.val node)
  else if typ = vModelT then
    match executeAttrModel st attr.val node with
    | (st1, n1, none) => .ok (.cont st1 n1)
    | (_, _, some e) => .error e
  else if typ = vOnT then
    match executeAttrOn st part attr.val node with
    | (st1, n1) => .ok (.cont st1 n1)
  else
    .error (.unknownDirective typ)

/-- Result of the attribute loop on one element: either the loop ran to
the end of the attribute list (node survives), or a structural
directive replaced the node. -/
inductive LoopRes where
  | completed (st : St) (node : HNode)
  | replaced (st : St) (repl : List HNode)

/-- The attribute loop of executeElement: scan the attribute list from
index i; a directive-prefixed attribute is deleted in place (the index
stays put, as the source decrements and the loop increments) and
dispatched; any other attribute is skipped.  Recursion is fuel-indexed
because handlers may append attributes behind the cursor. -/
def attrLoop (ext : Boundary) : Nat → St → HNode → Nat → Except Err LoopRes
  | 0, _, _, _ => .error .outOfFuel
  | f+1, st, node, i =>
    match node with
    | .text s => .ok (.completed st (.text s))
    | .elem tag attrs cs =>
      match attrs[i]? with
      | none => .ok (.completed st (.elem tag attrs cs))
      | some a =>
        if startsWith a.key vPre then
          match executeAttr ext st (.elem tag (deleteAttr attrs i) cs) none a with
          | .error e => .error e
          | .ok (.cont st1 node1) => attrLoop ext f st1 node1 i
          | .ok (.replaced st1 repl) => .ok (.replaced st1 repl)
        else
          attrLoop ext f st (.elem tag attrs cs) (i + 1)

/-- The traversal driver over a sibling list, following executeElement:
text nodes are left for the text pass; an element gets its attributes
ordered, then the attribute loop runs; a structural replacement splices
the produced nodes in front of the remaining siblings and resumes
there; otherwise the children are executed and traversal moves to the
next sibling.  The subcomponent registry of the surrounding component
is modelled as empty (newSub never succeeds), so executions are those
of components without registered subcomponents. -/
def execSibs (ext : Boundary) : Nat → St → List HNode → Except Err (St × List HNode)
  | 0, _, _ => .error .outOfFuel
  | _+1, st, [] => .ok (st, [])
  | f+1, st, n :: rest =>
    match n with
    | .text s => (execSibs ext f st rest).map (fun r => (r.1, .text s :: r.2))
    | .elem tag attrs cs =>
      match attrLoop ext f st (.elem tag (orderAttrs attrs) cs) 0 with
      | .error e => .error e
      | .ok (.replaced st1 repl) => execSibs ext f st1 (repl ++ rest)
      | .ok (.completed st1 node1) =>
        match node1 with
        | .text s => (execSibs ext f st1 rest).map (fun r => (r.1, .text s :: r.2))
        | .elem t1 a1 c1 =>
          match execSibs ext f st1 c1 with
          | .error e => .error e
          | .ok (st2, c2) =>
            (execSibs ext f st2 rest).map (fun r => (r.1, .elem t1 a1 c2 :: r.2))

mutual
/-- executeText: a text node whose trimmed content is empty is skipped;
other text nodes are rendered through the substitution engine; elements
recurse into children only, attribute text is never interpolated. -/
def executeText (render : Ctx → GoStr → Except Err GoStr) (ctx : Ctx) :
    HNode → Except Err HNode
  | .text s =>
    if trimSpace s = [] then .ok (.text s)
    else (render ctx s).map (fun r => .text r)
  | .elem t a cs => (executeTextList render ctx cs).map (fun l => .elem t a l)
/-- executeText over a sibling list. -/
def executeTextList (render : Ctx → GoStr → Except Err GoStr) (ctx : Ctx) :
    List HNode → Except Err (List HNode)
  | [] => .ok []
  | n :: ns =>
    match executeText render ctx n with
    | .error e => .error e
    | .ok n1 => (executeTextList render ctx ns).map (fun l => n1 :: l)
end

/-- One complete template execution: the element pass over the parsed
top-level nodes (with a fresh id counter), then the text pass over the
result against the context as the loops left it.  The final state is
returned alongside the output forest so that theorems can inspect the
context and the registered listeners. -/
def executeTmpl (ext : Boundary) (fuel : Nat) (nodes : List HNode) (data : Ctx) :
    Except Err (St × List HNode) :=
  match execSibs ext fuel (St.mk data 0 []) nodes with
  | .error e => .error e
  | .ok (st, out) =>
    match executeTextList ext.render st.ctx out with
    | .error e => .error e
    | .ok out2 => .ok (st, out2)

mutual
/-- No element of the node carries a directive-prefixed attribute. -/
def cleanNode : HNode → Bool
  | .text _ => true
  | .elem _ attrs cs => attrs.all (fun a => !(startsWith a.key vPre)) && cleanForest cs
/-- cleanNode over a forest. -/
def cleanForest : List HNode → Bool
  | [] => true
  | n :: ns => cleanNode n && cleanForest ns
end

def lbChar : Char := Char.ofNat 123
def rbChar : Char := Char.ofNat 125

/-- The double-brace opening token of a mustache placeholder. -/
def openPH : GoStr := [lbChar, lbChar]

mutual
/-- No text node of the node contains a remaining placeholder. -/
def noPHNode : HNode → Bool
  | .text s => !(hasSub openPH s)
  | .elem _ _ cs => noPHForest cs
/-- noPHNode over a forest. -/
def noPHForest : List HNode → Bool
  | [] => true
  | n :: ns => noPHNode n && noPHForest ns
end

/-- Modelled from the spec: the external mustache substitution engine
(Interpolate boundary), whose implementation is not part of the
reviewed source.  Double-brace placeholders are replaced by the looked
up field formatted with goFormat; absent fields render as empty; an
unterminated placeholder is an interpolation error.  The first
argument is none outside a placeholder and the reversed placeholder
body inside one. -/
def miniRenderAux (ctx : Ctx) : Option GoStr → GoStr → Except Err GoStr
  | none, [] => .ok []
  | none, [c] => .ok [c]
  | none, c :: d :: rest =>
    if c == lbChar && d == lbChar then miniRenderAux ctx (some []) rest
    else (miniRenderAux ctx none (d :: rest)).map (fun r => c :: r)
  | some _, [] => .error (.interpolation [])
  | some _, [c] => .error (.interpolation [c])
  | some acc, c :: d :: rest =>
    if c == rbChar && d == rbChar then
      match ctxLookup ctx (trimSpace acc.reverse) with
      | some v => (miniRenderAux ctx none rest).map (fun r => goFormat v ++ r)
      | none => miniRenderAux ctx none rest
    else miniRenderAux ctx (some (c :: acc)) (d :: rest)

/-- The modelled substitution engine, entry point. -/
def miniRender (ctx : Ctx) (s : GoStr) : Except Err GoStr := miniRenderAux ctx none s

/-- A minimal instance of the external parse boundary, for concrete
executions: a nonempty fragment parses to a single text node. -/
def miniParse (s : GoStr) : List HNode := if s = [] then [] else [.text s]

/-- Concrete external collaborators used in closed evaluations. -/
def extM : Boundary := Boundary.mk miniParse miniRender

/-- The context bindings one for expansion adds, in iteration order:
element i is bound under the synthetic key built from the variable name
and the running counter. -/
def forBinds (name : GoStr) : Nat → List Val → List (GoStr × Val)
  | _, [] => []
  | id, v :: vs => (name ++ natChars id, v) :: forBinds name (id + 1) vs

/-- Field names of the final context of an element pass result. -/
def ctxKeysRes (r : Except Err (St × List HNode)) : List GoStr :=
  match r with
  | .ok (st, _) => st.ctx.map Prod.fst
  | .error _ => []

/-- Sibling loops sharing a key collision: variable x1 over a
one-element sequence, then variable x over a ten-element sequence. -/
def ctxColl : Ctx :=
  [(gostr "As", Val.seq [Val.str (gostr "u")]),
   (gostr "Bs", Val.seq (List.replicate 10 (Val.bool true)))]

/-- The two sibling for elements of the collision run. -/
def tplColl : List HNode :=
  [.elem (gostr "a") [Attr.mk (gostr "v-for") (gostr "x1 in As")] [],
   .elem (gostr "b") [Attr.mk (gostr "v-for") (gostr "x in Bs")] []]

/-- Nested loops both named Item: the outer over a two-element sequence
of sequences, the inner over the outer loop value. -/
def ctxNest : Ctx :=
  [(gostr "Items",
    Val.seq [Val.seq [Val.str (gostr "a"), Val.str (gostr "b")],
             Val.seq [Val.str (gostr "c")]])]

/-- The nested-loop template of the Item run. -/
def tplNest : List HNode :=
  [.elem (gostr "ul") [Attr.mk (gostr "v-for") (gostr "Item in Items")]
    [.elem (gostr "li") [Attr.mk (gostr "v-for") (gostr "Item in Item")] []]]

/-- C1, counterexample: an if directive whose field is absent from the
context raises no error and the execution completes with an output
tree; the node is silently removed instead.  This refutes the claim
that all four of bind, if, html and model raise a designated error on
an absent field with no output tree produced. -/
theorem c1_if_absent_counterexample :
    executeTmpl extM 20
      [.elem (gostr "div") [Attr.mk (gostr "v-if") (gostr "q")] [],
       .elem (gostr "p") [] []] []
      = .ok (St.mk [] 0 [], [.elem (gostr "p") [] []]) := rfl

/-- C2: a for directive over a zero-element sequence does not resume at
the former next sibling: the source indexes nodes[0] of the empty
parse result, a slice index panic. -/
theorem c2_for_empty_seq_eval :
    executeAttrFor (St.mk [(gostr "Items", Val.seq [])] 0 [])
      (gostr "Item in Items") (.elem (gostr "li") [] [])
      = .error .indexOutOfRange := rfl

/-- C3, counterexample: an attribute whose key has the directive prefix
but matches no known directive prefix is dropped by the orderer, so the
output is not a permutation of the authored list. -/
theorem c3_order_drops_counterexample :
    orderAttrs [Attr.mk (gostr "v-unknown") (gostr "a")] = [] ∧
    [Attr.mk (gostr "v-unknown") (gostr "a")] ≠ ([] : List Attr) :=
  ⟨rfl, by decide⟩

/-- C4, counterexample: a node carrying the key v-unknown, which has
the directive prefix and a kind that is none of the six directives,
executes without any error: the orderer discards the attribute before
the dispatcher could see it. -/
theorem c4_unknown_counterexample :
    executeTmpl extM 20
      [.elem (gostr "div") [Attr.mk (gostr "v-unknown") (gostr "z")] []] []
      = .ok (St.mk [] 0 [], [.elem (gostr "div") [] []]) := rfl

/-- C5, counterexample: splitting on the literal token in mangles names
that contain the letter pair: the expression line in lines parses to
variable l and field e, not to line and lines. -/
theorem c5_split_counterexample :
    forSplit (gostr "line in lines") = some (gostr "l", gostr "e") ∧
    (gostr "l", gostr "e") ≠ (gostr "line", gostr "lines") :=
  ⟨rfl, by decide⟩

/-- C6, counterexample: the model directive appends the input marker
attribute and registers the handler before the lookup, so on an absent
field the error is produced with the attribute list already extended. -/
theorem c6_model_counterexample :
    executeAttrModel (St.mk [] 0 []) (gostr "f") (.elem (gostr "input") [] [])
      = (St.mk [] 0 [(gostr "input", Handler.vModel)],
         .elem (gostr "input") [Attr.mk (gostr "input") (gostr "f")] [],
         some (.unknownDataField (gostr "f"))) ∧
    [Attr.mk (gostr "input") (gostr "f")] ≠ ([] : List Attr) :=
  ⟨rfl, by decide⟩

/-- C8, counterexample: within one execution, the sibling loops with
variables x1 (one iteration, key x10) and x (ten iterations, keys x1
through x10) bind the same synthetic key x10 twice, so loop keys are
not pairwise distinct when variable names differ. -/
theorem c8_keys_counterexample :
    (ctxKeysRes (execSibs extM 50 (St.mk ctxColl 0 []) tplColl)).count (gostr "x10")
      = 2 := rfl

/-- C7: an if directive whose field is present with boolean value true
leaves the node (and hence its children) unchanged and produces no
structural signal; with value false the node is removed and the
traversal driver continues at the former next sibling with a
structural signal. -/
theorem c7_if_spec (st : St) (field : GoStr) (node : HNode) (ext : Boundary) (g : Nat)
    (tag : GoStr) (cs rest : List HNode) :
    (ctxLookup st.ctx field = some (.bool true) →
      executeAttrIf st field node = .cont st node) ∧
    (ctxLookup st.ctx field = some (.bool false) →
      executeAttrIf st field node = .replaced st [] ∧
      execSibs ext (g + 2) st (.elem tag [Attr.mk vIfT field] cs :: rest)
        = execSibs ext (g + 1) st rest) := by
  refine ⟨fun h => ?_, fun h => ?_⟩
  · unfold executeAttrIf
    rw [h]
  · have hif : executeAttrIf st field (HNode.elem tag [] cs) = .replaced st [] := by
      unfold executeAttrIf
      rw [h]
    have hAttr : executeAttr ext st (.elem tag [] cs) none (Attr.mk vIfT field)
        = .ok (executeAttrIf st field (.elem tag [] cs)) := rfl
    have hloop : attrLoop ext (g + 1) st (.elem tag [Attr.mk vIfT field] cs) 0
        = (match executeAttr ext st (.elem tag [] cs) none (Attr.mk vIfT field) with
           | .error e => .error e
           | .ok (.cont st1 node1) => attrLoop ext g st1 node1 0
           | .ok (.replaced st1 repl) => .ok (.replaced st1 repl)) := rfl
    rw [hAttr, hif] at hloop
    have hsibs : execSibs ext (g + 2) st (.elem tag [Attr.mk vIfT field] cs :: rest)
        = (match attrLoop ext (g + 1) st (.elem tag (orderAttrs [Attr.mk vIfT field]) cs) 0 with
           | .error e => .error e
           | .ok (.replaced st1 repl) => execSibs ext (g + 1) st1 (repl ++ rest)
           | .ok (.completed st1 node1) =>
             match node1 with
             | .text s => (execSibs ext (g + 1) st1 rest).map (fun r => (r.1, .text s :: r.2))
             | .elem t1 a1 c1 =>
               match execSibs ext (g + 1) st1 c1 with
               | .error e => .error e
               | .ok (st2, c2) =>
                 (execSibs ext (g + 1) st2 rest).map (fun r => (r.1, .elem t1 a1 c2 :: r.2))) := rfl
    have horder : orderAttrs [Attr.mk vIfT field] = [Attr.mk vIfT field] := rfl
    rw [horder, hloop] at hsibs
    exact ⟨by unfold executeAttrIf; rw [h], hsibs⟩

/-- C7, witness: the specification of the if directive applied at a
concrete context holding one true and one false field. -/
theorem c7_if_witness :
    (executeAttrIf (St.mk [(gostr "ok", Val.bool true), (gostr "no", Val.bool false)] 0 [])
        (gostr "ok") (.text (gostr "t"))
      = .cont (St.mk [(gostr "ok", Val.bool true), (gostr "no", Val.bool false)] 0 [])
          (.text (gostr "t"))) ∧
    (executeAttrIf (St.mk [(gostr "ok", Val.bool true), (gostr "no", Val.bool false)] 0 [])
        (gostr "no") (.text (gostr "t"))
      = .replaced (St.mk [(gostr "ok", Val.bool true), (gostr "no", Val.bool false)] 0 []) [] ∧
      execSibs extM 5 (St.mk [(gostr "ok", Val.bool true), (gostr "no", Val.bool false)] 0 [])
          (.elem (gostr "div") [Attr.mk vIfT (gostr "no")] [] :: [.elem (gostr "p") [] []])
        = execSibs extM 4 (St.mk [(gostr "ok", Val.bool true), (gostr "no", Val.bool false)] 0 [])
            [.elem (gostr "p") [] []]) :=
  ⟨(c7_if_spec (St.mk [(gostr "ok", Val.bool true), (gostr "no", Val.bool false)] 0 [])
      (gostr "ok") (.text (gostr "t")) extM 3 (gostr "div") [] [.elem (gostr "p") [] []]).1 rfl,
   (c7_if_spec (St.mk [(gostr "ok", Val.bool true), (gostr "no", Val.bool false)] 0 [])
      (gostr "no") (.text (gostr "t")) extM 3 (gostr "div") [] [.elem (gostr "p") [] []]).2 rfl⟩

theorem pre_of_total (k : GoStr) : ∀ (p q : GoStr), pre_of p k = true → pre_of q k = true →
    pre_of p q = true ∨ pre_of q p = true := by
  induction k with
  | nil =>
    intro p q hp hq
    cases p with
    | nil => left; rfl
    | cons a pa => simp [pre_of] at hp
  | cons c k ih =>
    intro p q hp hq
    cases p with
    | nil => left; rfl
    | cons a pa =>
      cases q with
      | nil => right; rfl
      | cons b qb =>
        simp only [pre_of, Bool.and_eq_true, beq_iff_eq] at hp hq
        rcases hp with ⟨rfl, hp2⟩
        rcases hq with ⟨rfl, hq2⟩
        rcases ih pa qb hp2 hq2 with h | h
        · left; simp [pre_of, h]
        · right; simp [pre_of, h]

theorem pre_of_trans (p : GoStr) : ∀ (q k : GoStr), pre_of p q = true → pre_of q k = true →
    pre_of p k = true := by
  induction p with
  | nil => intro q k h1 h2; rfl
  | cons a pa ih =>
    intro q k h1 h2
    cases q with
    | nil => simp [pre_of] at h1
    | cons b qb =>
      cases k with
      | nil => simp [pre_of] at h2
      | cons c kc =>
        simp only [pre_of, Bool.and_eq_true, beq_iff_eq] at h1 h2 ⊢
        rcases h1 with ⟨rfl, h1⟩
        rcases h2 with ⟨rfl, h2⟩
        exact ⟨rfl, ih qb kc h1 h2⟩

theorem six_disjoint : ∀ p ∈ attrOrderL, ∀ q ∈ attrOrderL, p ≠ q → pre_of p q = false := by
  decide

theorem six_vPre : ∀ p ∈ attrOrderL, pre_of vPre p = true := by decide

theorem six_nodup : attrOrderL.Nodup := by decide

theorem countP_zero_bucket {α : Type} {l : List α} {x : α} :
    ∀ (preds : List (α → Bool)), preds.countP (fun p => p x) = 0 →
    preds.flatMap (fun p => (x :: l).filter p) = preds.flatMap (fun p => l.filter p) := by
  intro preds
  induction preds with
  | nil => intro h; rfl
  | cons p ps ih =>
    intro h
    rw [List.countP_cons] at h
    by_cases hp : p x
    · simp [hp] at h
    · have h0 : ps.countP (fun q => q x) = 0 := by
        simp only [hp, if_false] at h
        simpa using h
      rw [List.flatMap_cons, List.flatMap_cons, List.filter_cons_of_neg hp, ih h0]

theorem countP_one_bucket {α : Type} {l : List α} {x : α} :
    ∀ (preds : List (α → Bool)), preds.countP (fun p => p x) = 1 →
    (preds.flatMap (fun p => (x :: l).filter p)).Perm
      (x :: preds.flatMap (fun p => l.filter p)) := by
  intro preds
  induction preds with
  | nil => intro h; simp at h
  | cons p ps ih =>
    intro h
    rw [List.countP_cons] at h
    by_cases hp : p x
    · have h0 : ps.countP (fun q => q x) = 0 := by
        simp only [hp, if_true] at h
        simpa using h
      rw [List.flatMap_cons, List.flatMap_cons, List.filter_cons_of_pos hp,
        countP_zero_bucket ps h0, List.cons_append]
    · have h1 : ps.countP (fun q => q x) = 1 := by
        simp only [hp, if_false] at h
        simpa using h
      rw [List.flatMap_cons, List.flatMap_cons, List.filter_cons_of_neg hp]
      exact ((ih h1).append_left (l.filter p)).trans List.perm_middle

theorem countP_perm {α : Type} : ∀ (l : List α) (preds : List (α → Bool)),
    (∀ x ∈ l, preds.countP (fun p => p x) = 1) →
    (preds.flatMap (fun p => l.filter p)).Perm l := by
  intro l
  induction l with
  | nil =>
    intro preds h
    induction preds with
    | nil => simp
    | cons p ps ihp =>
      rw [List.flatMap_cons, List.filter_nil, List.nil_append]
      exact ihp (by simp)
  | cons x l ih =>
    intro preds h
    exact (countP_one_bucket preds (h x (by simp))).trans
      ((ih preds (fun y hy => h y (by simp [hy]))).cons x)

theorem countP_one_pairwise {β : Type} (q : β → Bool) :
    ∀ (ps : List β), ps.Pairwise (fun p r => ¬(q p = true ∧ q r = true)) →
    (∃ p ∈ ps, q p = true) → ps.countP q = 1 := by
  intro ps
  induction ps with
  | nil =>
    rintro _ ⟨p, hp, _⟩
    simp at hp
  | cons p ps ih =>
    intro hpw hex
    rw [List.pairwise_cons] at hpw
    rw [List.countP_cons]
    by_cases hq : q p
    · have h0 : ps.countP q = 0 :=
        List.countP_eq_zero.2 (fun r hr hqr => hpw.1 r hr ⟨hq, hqr⟩)
      simp [hq, h0]
    · rcases hex with ⟨r, hr, hqr⟩
      rcases List.mem_cons.1 hr with rfl | hr2
      · exact absurd hqr hq
      · simp [hq, ih hpw.2 ⟨r, hr2, hqr⟩]

theorem six_pairwise (key : GoStr) :
    attrOrderL.Pairwise (fun p r => ¬(pre_of p key = true ∧ pre_of r key = true)) :=
  six_nodup.pairwise_of_forall_ne (fun p hp r hr hne h => by
    rcases pre_of_total key p r h.1 h.2 with hh | hh
    · rw [six_disjoint p hp r hr hne] at hh
      exact Bool.false_ne_true hh
    · rw [six_disjoint r hr p hp (Ne.symm hne)] at hh
      exact Bool.false_ne_true hh)

/-- C3, amended: when every authored attribute either matches a known
directive prefix or lacks the directive prefix, the orderer produces a
permutation of the authored list; the attributes without the directive
prefix keep their original relative order behind the directive
buckets, and the concrete authored list of the specification is
reordered exactly as claimed.  Attributes with the directive prefix
matching no known directive prefix are dropped, as the counterexample
shows. -/
theorem c3_order_amended (attrs : List Attr)
    (h : ∀ a ∈ attrs, (∃ p ∈ attrOrderL, startsWith a.key p = true) ∨
      startsWith a.key vPre = false) :
    (orderAttrs attrs).Perm attrs ∧
    (orderAttrs attrs).filter (fun a => !(startsWith a.key vPre))
      = attrs.filter (fun a => !(startsWith a.key vPre)) ∧
    orderAttrs [Attr.mk (gostr "v-bind:x") [], Attr.mk (gostr "v-if") [],
        Attr.mk (gostr "v-on:click") [], Attr.mk (gostr "v-for") [],
        Attr.mk (gostr "v-html") [], Attr.mk (gostr "v-model") []]
      = [Attr.mk (gostr "v-for") [], Attr.mk (gostr "v-if") [],
         Attr.mk (gostr "v-model") [], Attr.mk (gostr "v-on:click") [],
         Attr.mk (gostr "v-bind:x") [], Attr.mk (gostr "v-html") []] := by
  refine ⟨?_, ?_, rfl⟩
  · unfold orderAttrs
    by_cases h0 : attrs.length = 0
    · rw [if_pos h0]
    · rw [if_neg h0]
      have hrw : attrOrderL.flatMap (fun p => attrs.filter (fun a => startsWith a.key p))
          ++ attrs.filter (fun a => !(startsWith a.key vPre))
          = ((attrOrderL.map (fun p => fun (a : Attr) => startsWith a.key p))
              ++ [fun (a : Attr) => !(startsWith a.key vPre)]).flatMap
              (fun q => attrs.filter q) := by
        rw [List.flatMap_append, List.flatMap_map]
        simp
      rw [hrw]
      apply countP_perm
      intro a ha
      rw [List.countP_append, List.countP_map]
      have hcomp : (List.countP ((fun q => q a) ∘ fun p (x : Attr) => startsWith x.key p) attrOrderL)
          = List.countP (fun p => pre_of p a.key) attrOrderL := rfl
      rw [hcomp]
      rcases h a ha with ⟨p, hp, hsw⟩ | hnv
      · have h1 : List.countP (fun p => pre_of p a.key) attrOrderL = 1 :=
          countP_one_pairwise _ attrOrderL (six_pairwise a.key) ⟨p, hp, hsw⟩
        have h2 : startsWith a.key vPre = true :=
          pre_of_trans vPre p a.key (six_vPre p hp) hsw
        rw [h1]
        simp [h2]
      · have h1 : List.countP (fun p => pre_of p a.key) attrOrderL = 0 :=
          List.countP_eq_zero.2 (fun p hp hpk => by
            have : startsWith a.key vPre = true :=
              pre_of_trans vPre p a.key (six_vPre p hp) hpk
            rw [hnv] at this
            exact Bool.false_ne_true this)
        rw [h1]
        simp [hnv]
  · unfold orderAttrs
    by_cases h0 : attrs.length = 0
    · rw [if_pos h0]
    · rw [if_neg h0, List.filter_append]
      have hA : (attrOrderL.flatMap
          (fun p => attrs.filter (fun a => startsWith a.key p))).filter
          (fun a => !(startsWith a.key vPre)) = [] := by
        apply List.filter_eq_nil_iff.2
        intro a ha
        rcases List.mem_flatMap.1 ha with ⟨p, hp, hf⟩
        have hsw : startsWith a.key p = true := (List.mem_filter.1 hf).2
        have hv : startsWith a.key vPre = true :=
          pre_of_trans vPre p a.key (six_vPre p hp) hsw
        simp [hv]
      have hB : (attrs.filter (fun a => !(startsWith a.key vPre))).filter
          (fun a => !(startsWith a.key vPre))
          = attrs.filter (fun a => !(startsWith a.key vPre)) := by
        rw [List.filter_filter]
        exact List.filter_congr (fun a _ => Bool.and_self _)
      rw [hA, hB, List.nil_append]

/-- C3, witness: the amended orderer contract applied to a list with
one known directive and one plain attribute. -/
theorem c3_order_witness :
    ((orderAttrs [Attr.mk (gostr "class") (gostr "c"), Attr.mk (gostr "v-if") (gostr "b")]).Perm
      [Attr.mk (gostr "class") (gostr "c"), Attr.mk (gostr "v-if") (gostr "b")] ∧
    (orderAttrs [Attr.mk (gostr "class") (gostr "c"), Attr.mk (gostr "v-if") (gostr "b")]).filter
        (fun a => !(startsWith a.key vPre))
      = [Attr.mk (gostr "class") (gostr "c"), Attr.mk (gostr "v-if") (gostr "b")].filter
        (fun a => !(startsWith a.key vPre)) ∧
    orderAttrs [Attr.mk (gostr "v-bind:x") [], Attr.mk (gostr "v-if") [],
        Attr.mk (gostr "v-on:click") [], Attr.mk (gostr "v-for") [],
        Attr.mk (gostr "v-html") [], Attr.mk (gostr "v-model") []]
      = [Attr.mk (gostr "v-for") [], Attr.mk (gostr "v-if") [],
         Attr.mk (gostr "v-model") [], Attr.mk (gostr "v-on:click") [],
         Attr.mk (gostr "v-bind:x") [], Attr.mk (gostr "v-html") []]) :=
  c3_order_amended
    [Attr.mk (gostr "class") (gostr "c"), Attr.mk (gostr "v-if") (gostr "b")]
    (by decide)

/-- C1, amended: on a field absent from the context, bind, html and
model raise the designated unknown-data-field error carrying the field
name (for model, after the unconditional attribute append), and the
execution aborts with no output tree; the if directive raises no error
and instead removes the node, resuming at the former next sibling. -/
theorem c1_absent_field_amended (st : St) (field : GoStr) (node : HNode)
    (sub : Option (List GoStr)) (part : GoStr) (ext : Boundary)
    (h : ctxLookup st.ctx field = none) :
    executeAttrBind sub part field st.ctx node = .error (.unknownDataField field) ∧
    executeAttrHtml ext field st.ctx node = .error (.unknownDataField field) ∧
    (executeAttrModel st field node).2.2 = some (.unknownDataField field) ∧
    executeAttrIf st field node = .replaced st [] := by
  refine ⟨?_, ?_, ?_, ?_⟩
  · unfold executeAttrBind
    rw [h]
  · unfold executeAttrHtml
    rw [h]
  · unfold executeAttrModel
    dsimp only
    rw [h]
  · unfold executeAttrIf
    rw [h]

/-- C4, amended: a directive-prefixed key reaches the dispatcher and
raises the unknown-directive error naming its kind only when it
textually extends one of the six known directive prefixes (such as
v-once); a directive-prefixed key matching none of the six (such as
v-unknown) is discarded by the orderer before dispatch and raises
nothing. -/
theorem c4_unknown_amended (ext : Boundary) (st : St) (node : HNode)
    (sub : Option (List GoStr)) (a : Attr) (attrs : List Attr)
    (h1 : ((goSplit colonTok a.key).headD []) ∉ attrOrderL)
    (h2 : ∀ p ∈ attrOrderL, startsWith a.key p = false)
    (h3 : startsWith a.key vPre = true) :
    executeAttr ext st node sub a
      = .error (.unknownDirective ((goSplit colonTok a.key).headD [])) ∧
    a ∉ orderAttrs attrs ∧
    executeTmpl extM 10 [.elem (gostr "div") [Attr.mk (gostr "v-once") (gostr "m")] []] []
      = .error (.unknownDirective (gostr "v-once")) := by
  refine ⟨?_, ?_, rfl⟩
  · unfold executeAttr
    rw [if_neg (fun hh => h1 (by rw [hh]; decide)),
        if_neg (fun hh => h1 (by rw [hh]; decide)),
        if_neg (fun hh => h1 (by rw [hh]; decide)),
        if_neg (fun hh => h1 (by rw [hh]; decide)),
        if_neg (fun hh => h1 (by rw [hh]; decide)),
        if_neg (fun hh => h1 (by rw [hh]; decide))]
  · unfold orderAttrs
    by_cases h0 : attrs.length = 0
    · rw [if_pos h0]
      rw [List.length_eq_zero] at h0
      subst h0
      simp
    · rw [if_neg h0]
      intro hmem
      rcases List.mem_append.1 hmem with hm | hm
      · rcases List.mem_flatMap.1 hm with ⟨p, hp, hf⟩
        have hx := (List.mem_filter.1 hf).2
        rw [h2 p hp] at hx
        exact Bool.false_ne_true hx
      · have hx := (List.mem_filter.1 hm).2
        rw [h3] at hx
        exact Bool.false_ne_true hx

/-- C1, witness: the amended absent-field behavior at an empty context. -/
theorem c1_absent_field_witness :
    (executeAttrBind none [] (gostr "q") (St.mk [] 0 []).ctx (.elem (gostr "i") [] [])
      = .error (.unknownDataField (gostr "q")) ∧
    executeAttrHtml extM (gostr "q") (St.mk [] 0 []).ctx (.elem (gostr "i") [] [])
      = .error (.unknownDataField (gostr "q")) ∧
    (executeAttrModel (St.mk [] 0 []) (gostr "q") (.elem (gostr "i") [] [])).2.2
      = some (.unknownDataField (gostr "q")) ∧
    executeAttrIf (St.mk [] 0 []) (gostr "q") (.elem (gostr "i") [] [])
      = .replaced (St.mk [] 0 []) []) :=
  c1_absent_field_amended (St.mk [] 0 []) (gostr "q") (.elem (gostr "i") [] [])
    none [] extM rfl

/-- C4, witness: the amended unknown-directive behavior at the keys
v-x (dropped by the orderer) and v-once (raises the error). -/
theorem c4_unknown_witness :
    (executeAttr extM (St.mk [] 0 []) (.elem (gostr "d") [] []) none
        (Attr.mk (gostr "v-x") (gostr "y"))
      = .error (.unknownDirective ((goSplit colonTok (gostr "v-x")).headD [])) ∧
    Attr.mk (gostr "v-x") (gostr "y")
      ∉ orderAttrs [Attr.mk (gostr "v-x") (gostr "y")] ∧
    executeTmpl extM 10 [.elem (gostr "div") [Attr.mk (gostr "v-once") (gostr "m")] []] []
      = .error (.unknownDirective (gostr "v-once"))) :=
  c4_unknown_amended extM (St.mk [] 0 []) (.elem (gostr "d") [] []) none
    (Attr.mk (gostr "v-x") (gostr "y")) [Attr.mk (gostr "v-x") (gostr "y")]
    (by decide) (by decide) (by decide)

/-- C6, amended: the model directive appends the input marker attribute
and registers the two-way handler before the lookup; on an absent or
non-string field the error is raised with the marker already appended
(and the registration already made), so the attribute list is not left
unchanged on error; the value attribute is appended only on success. -/
theorem c6_model_amended (st : St) (field : GoStr) (node : HNode) :
    (executeAttrModel st field node).1
      = { st with listeners := st.listeners ++ [(gostr "input", Handler.vModel)] } ∧
    (ctxLookup st.ctx field = none →
      executeAttrModel st field node
        = ({ st with listeners := st.listeners ++ [(gostr "input", Handler.vModel)] },
           appendAttr node (Attr.mk (gostr "input") field),
           some (.unknownDataField field))) ∧
    (∀ s, ctxLookup st.ctx field = some (.str s) →
      executeAttrModel st field node
        = ({ st with listeners := st.listeners ++ [(gostr "input", Handler.vModel)] },
           appendAttr (appendAttr node (Attr.mk (gostr "input") field))
             (Attr.mk (gostr "value") s),
           none)) := by
  refine ⟨?_, fun h => ?_, fun s h => ?_⟩
  · unfold executeAttrModel
    dsimp only
    rcases hc : ctxLookup st.ctx field with _ | v
    · rfl
    · cases v <;> rfl
  · unfold executeAttrModel
    dsimp only
    rw [h]
  · unfold executeAttrModel
    dsimp only
    rw [h]

/-- C6, witness: the amended model behavior at a context with one
string field, exercising the success branch. -/
theorem c6_model_witness :
    (executeAttrModel (St.mk [(gostr "msg", Val.str (gostr "hi"))] 0 [])
        (gostr "msg") (.elem (gostr "input") [] [])).1
      = { St.mk [(gostr "msg", Val.str (gostr "hi"))] 0 [] with
          listeners := [] ++ [(gostr "input", Handler.vModel)] } ∧
    executeAttrModel (St.mk [(gostr "msg", Val.str (gostr "hi"))] 0 [])
        (gostr "msg") (.elem (gostr "input") [] [])
      = ({ St.mk [(gostr "msg", Val.str (gostr "hi"))] 0 [] with
           listeners := [] ++ [(gostr "input", Handler.vModel)] },
         appendAttr (appendAttr (.elem (gostr "input") [] [])
             (Attr.mk (gostr "input") (gostr "msg")))
           (Attr.mk (gostr "value") (gostr "hi")),
         none) :=
  ⟨(c6_model_amended (St.mk [(gostr "msg", Val.str (gostr "hi"))] 0 [])
      (gostr "msg") (.elem (gostr "input") [] [])).1,
   (c6_model_amended (St.mk [(gostr "msg", Val.str (gostr "hi"))] 0 [])
      (gostr "msg") (.elem (gostr "input") [] [])).2.2 (gostr "hi") rfl⟩

theorem dw_len {p : Char → Bool} : ∀ (l : GoStr), (l.dropWhile p).length ≤ l.length := by
  intro l
  induction l with
  | nil => simp
  | cons c rest ih =>
    rw [List.dropWhile_cons]
    by_cases hp : p c
    · simp only [hp, if_true]
      exact Nat.le_succ_of_le ih
    · simp [hp]

theorem dw_of_len {p : Char → Bool} : ∀ (l : GoStr),
    (l.dropWhile p).length = l.length → l.dropWhile p = l := by
  intro l
  induction l with
  | nil => intro _; rfl
  | cons c rest ih =>
    intro h
    rw [List.dropWhile_cons] at h ⊢
    by_cases hp : p c
    · simp only [hp, if_true] at h
      have := dw_len (p := p) rest
      simp at h
      omega
    · simp [hp]

theorem trim_self_parts {s : GoStr} (h : trimSpace s = s) :
    s.dropWhile isSp = s ∧ s.reverse.dropWhile isSp = s.reverse := by
  unfold trimSpace at h
  have l1 : ((((s.dropWhile isSp).reverse).dropWhile isSp).reverse).length = s.length := by
    rw [h]
  have l2 : (((s.dropWhile isSp).reverse).dropWhile isSp).length
      ≤ (s.dropWhile isSp).length := by
    have := dw_len (p := isSp) ((s.dropWhile isSp).reverse)
    simpa using this
  have l3 : (s.dropWhile isSp).length ≤ s.length := dw_len s
  rw [List.length_reverse] at l1
  have e1 : (s.dropWhile isSp).length = s.length := by omega
  have hdw : s.dropWhile isSp = s := dw_of_len s e1
  rw [hdw] at h ⊢
  refine ⟨rfl, ?_⟩
  apply dw_of_len
  have l4 : ((s.reverse).dropWhile isSp).length = s.length := by
    have := congrArg List.length h
    simpa using this
  simpa using l4

theorem trim_append_sp {s : GoStr} (h : trimSpace s = s) :
    trimSpace (s ++ [' ']) = s := by
  rcases trim_self_parts h with ⟨h1, h2⟩
  cases s with
  | nil => rfl
  | cons c rest =>
    have hc : isSp c = false := by
      by_cases hp : isSp c
      · rw [List.dropWhile_cons, if_pos hp] at h1
        have hl := dw_len (p := isSp) rest
        have := congrArg List.length h1
        simp at this
        omega
      · simpa using hp
    unfold trimSpace
    have hrw1 : List.dropWhile isSp (c :: rest ++ [' ']) = c :: (rest ++ [' ']) := by
      rw [List.cons_append, List.dropWhile_cons, hc]
      simp
    rw [hrw1]
    have hrev : (c :: (rest ++ [' '])).reverse = ' ' :: (c :: rest).reverse := by
      simp
    rw [hrev, List.dropWhile_cons, if_pos (by decide : isSp ' ' = true), h2]
    simp

theorem trim_cons_sp {s : GoStr} (h : trimSpace s = s) :
    trimSpace (' ' :: s) = s := by
  rcases trim_self_parts h with ⟨h1, h2⟩
  unfold trimSpace
  rw [List.dropWhile_cons, if_pos (by decide : isSp ' ' = true), h1, h2]
  simp

theorem splitAux_cons_step (pat acc : GoStr) (c : Char) (rest : GoStr) :
    splitAux pat acc 0 (c :: rest)
      = if pre_of pat (c :: rest) = true then
          acc.reverse :: splitAux pat [] (pat.length - 1) rest
        else splitAux pat (c :: acc) 0 rest := rfl

theorem splitAux_no_occ (pat : GoStr) : ∀ (s acc : GoStr), hasSub pat s = false →
    splitAux pat acc 0 s = [acc.reverse ++ s] := by
  intro s
  induction s with
  | nil =>
    intro acc h
    simp [splitAux]
  | cons c rest ih =>
    intro acc h
    unfold hasSub at h
    rw [Bool.or_eq_false_iff] at h
    rw [splitAux_cons_step, if_neg (by rw [h.1]; exact Bool.false_ne_true), ih (c :: acc) h.2]
    simp

theorem splitAux_var (tailr : GoStr) : ∀ (var acc : GoStr), hasSub inTok var = false →
    splitAux inTok acc 0 (var ++ ' ' :: 'i' :: 'n' :: tailr)
      = (acc.reverse ++ var ++ [' ']) :: splitAux inTok [] 0 tailr := by
  intro var
  induction var with
  | nil =>
    intro acc h
    rw [List.nil_append, splitAux_cons_step, if_neg (by simp [inTok, pre_of]),
      splitAux_cons_step, if_pos (by simp [inTok, pre_of])]
    have hskip : splitAux inTok [] (inTok.length - 1) ('n' :: tailr)
        = splitAux inTok [] 0 tailr := rfl
    rw [hskip]
    simp
  | cons c var' ih =>
    intro acc h
    unfold hasSub at h
    rw [Bool.or_eq_false_iff] at h
    have hpre : pre_of inTok (c :: (var' ++ ' ' :: 'i' :: 'n' :: tailr)) = false := by
      cases var' with
      | nil =>
        simp only [inTok, pre_of, List.nil_append, Bool.and_eq_true, beq_iff_eq]
        simp
      | cons d var'' =>
        have hp := h.1
        simp only [inTok, pre_of, Bool.and_eq_true, beq_iff_eq] at hp ⊢
        simpa using hp
    rw [List.cons_append, splitAux_cons_step,
      if_neg (by rw [hpre]; exact Bool.false_ne_true), ih (c :: acc) h.2]
    simp

theorem goSplit_for_expr (var field : GoStr)
    (h3 : hasSub inTok var = false) (h4 : hasSub inTok field = false) :
    goSplit inTok (var ++ gostr " in " ++ field) = [var ++ [' '], ' ' :: field] := by
  have hshape : var ++ gostr " in " ++ field = var ++ ' ' :: 'i' :: 'n' :: (' ' :: field) := by
    simp [gostr]
  rw [hshape]
  unfold goSplit
  rw [if_neg (by decide : ¬(inTok = []))]
  rw [splitAux_var (' ' :: field) var [] h3]
  have hsecond : hasSub inTok (' ' :: field) = false := by
    unfold hasSub
    rw [Bool.or_eq_false_iff]
    exact ⟨by simp [inTok, pre_of], h4⟩
  rw [splitAux_no_occ inTok (' ' :: field) [] hsecond]
  simp

/-- C5, amended: splitting on the literal token in and trimming yields
exactly the variable and field names whenever neither name contains the
letter pair in (the counterexample shows it mangles names that do); an
absent field raises the designated slice-not-found error carrying the
field name. -/
theorem c5_split_amended (var field : GoStr)
    (h1 : trimSpace var = var) (h2 : trimSpace field = field)
    (h3 : hasSub inTok var = false) (h4 : hasSub inTok field = false) :
    forSplit (var ++ gostr " in " ++ field) = some (var, field) ∧
    (∀ (st : St) (value : GoStr) (node : HNode) (name fieldName : GoStr),
      forSplit value = some (name, fieldName) →
      ctxLookup st.ctx fieldName = none →
      executeAttrFor st value node = .error (.sliceNotFound fieldName)) := by
  constructor
  · unfold forSplit
    rw [goSplit_for_expr var field h3 h4]
    show some (trimSpace (var ++ [' ']), trimSpace (' ' :: field)) = _
    rw [trim_append_sp h1, trim_cons_sp h2]
  · intro st value node name fieldName hsplit hlook
    unfold executeAttrFor
    rw [hsplit]
    show (match ctxLookup st.ctx fieldName with
      | none => (Except.error (.sliceNotFound fieldName) : Except Err (St × List HNode))
      | some v =>
        match seqVals v with
        | none => Except.error (.notSequence fieldName)
        | some vals =>
          let r := forLoop name node st.id st.ctx vals
          match r.2.2 with
          | [] => Except.error .indexOutOfRange
          | copies => Except.ok ({ st with id := r.1, ctx := r.2.1 }, copies))
      = Except.error (.sliceNotFound fieldName)
    rw [hlook]

/-- C5, witness: the amended split contract at the names Item and
Items, and the absent-field error at an empty context. -/
theorem c5_split_witness :
    forSplit (gostr "Item" ++ gostr " in " ++ gostr "Items")
      = some (gostr "Item", gostr "Items") ∧
    executeAttrFor (St.mk [] 0 []) (gostr "a in b") (.text [])
      = .error (.sliceNotFound (gostr "b")) :=
  ⟨(c5_split_amended (gostr "Item") (gostr "Items") rfl rfl rfl rfl).1,
   (c5_split_amended (gostr "Item") (gostr "Items") rfl rfl rfl rfl).2
     (St.mk [] 0 []) (gostr "a in b") (.text []) (gostr "a") (gostr "b") rfl rfl⟩

theorem digitVal_digitChar : ∀ n, n < 10 → digitVal (digitChar n) = n := by decide

theorem charsNat_append_digit (A : GoStr) (c : Char) :
    charsNat (A ++ [c]) = charsNat A * 10 + digitVal c := by
  unfold charsNat
  rw [List.foldl_append]
  rfl

theorem natCharsAux_rt : ∀ (f n : Nat), n < f → charsNat (natCharsAux f n) = n := by
  intro f
  induction f with
  | zero => intro n h; omega
  | succ f ih =>
    intro n h
    unfold natCharsAux
    by_cases h10 : n < 10
    · rw [if_pos h10]
      show charsNat [digitChar n] = n
      unfold charsNat
      show (0 * 10 + digitVal (digitChar n)) = n
      rw [digitVal_digitChar n h10]
      omega
    · rw [if_neg h10]
      rw [charsNat_append_digit]
      have hd : n / 10 < f := by omega
      rw [ih (n / 10) hd, digitVal_digitChar (n % 10) (by omega)]
      omega

theorem natChars_inj {m n : Nat} (h : natChars m = natChars n) : m = n := by
  have hm := natCharsAux_rt (m + 1) m (by omega)
  have hn := natCharsAux_rt (n + 1) n (by omega)
  unfold natChars at h
  rw [h] at hm
  rw [hn] at hm
  omega

theorem key_inj (name : GoStr) {i j : Nat}
    (h : name ++ natChars i = name ++ natChars j) : i = j :=
  natChars_inj (List.append_cancel_left h)

theorem forLoop_spec (name : GoStr) (node : HNode) : ∀ (vals : List Val) (id : Nat) (ctx : Ctx),
    (forLoop name node id ctx vals).1 = id + vals.length ∧
    (forLoop name node id ctx vals).2.1 = (forBinds name id vals).reverse ++ ctx := by
  intro vals
  induction vals with
  | nil => intro id ctx; simp [forLoop, forBinds]
  | cons v vs ih =>
    intro id ctx
    unfold forLoop forBinds
    rcases ih (id + 1) ((name ++ natChars id, v) :: ctx) with ⟨ih1, ih2⟩
    constructor
    · dsimp only
      rw [ih1]
      simp
      omega
    · dsimp only
      rw [ih2]
      simp

theorem forBinds_keys_mem (name : GoStr) : ∀ (vals : List Val) (id : Nat) (k : GoStr),
    k ∈ (forBinds name id vals).map Prod.fst →
    ∃ j, id ≤ j ∧ j < id + vals.length ∧ k = name ++ natChars j := by
  intro vals
  induction vals with
  | nil => intro id k h; simp [forBinds] at h
  | cons v vs ih =>
    intro id k h
    unfold forBinds at h
    rw [List.map_cons, List.mem_cons] at h
    rcases h with h | h
    · refine ⟨id, by omega, ?_, h⟩
      rw [List.length_cons]
      omega
    · rcases ih (id + 1) k h with ⟨j, hj1, hj2, hj3⟩
      refine ⟨j, by omega, ?_, hj3⟩
      rw [List.length_cons]
      omega

theorem forBinds_keys_nodup (name : GoStr) : ∀ (vals : List Val) (id : Nat),
    ((forBinds name id vals).map Prod.fst).Nodup := by
  intro vals
  induction vals with
  | nil => intro id; simp [forBinds]
  | cons v vs ih =>
    intro id
    unfold forBinds
    rw [List.map_cons, List.nodup_cons]
    refine ⟨fun hmem => ?_, ih (id + 1)⟩
    rcases forBinds_keys_mem name vs (id + 1) _ hmem with ⟨j, hj1, _, hj3⟩
    have := key_inj name hj3
    omega

/-- C8, amended: the synthetic keys of one for expansion are the
variable name followed by consecutive counter values, so keys built
from the same variable name are pairwise distinct (the counter is
strictly monotonic across the execution: the final counter is the
initial one plus the iteration count); keys from different variable
names can coincide, as the counterexample shows.  The closed clause
re-checks the nested-loops instance of the claim: two nested loops both
named Item bind exactly as many distinct context keys as the total
iteration count (five) on top of the one initial field. -/
theorem c8_keys_amended (st : St) (value : GoStr) (node : HNode)
    (name field : GoStr) (vals : List Val) (st' : St) (repl : List HNode) (i j : Nat)
    (hsplit : forSplit value = some (name, field))
    (hlook : ctxLookup st.ctx field = some (.seq vals))
    (hexec : executeAttrFor st value node = .ok (st', repl)) :
    st'.id = st.id + vals.length ∧
    st'.ctx = (forBinds name st.id vals).reverse ++ st.ctx ∧
    ((forBinds name st.id vals).map Prod.fst).Nodup ∧
    (i = j ∨ name ++ natChars i ≠ name ++ natChars j) ∧
    (ctxKeysRes (execSibs extM 80 (St.mk ctxNest 0 []) tplNest)).dedup.length = 6 := by
  unfold executeAttrFor at hexec
  rw [hsplit] at hexec
  dsimp only at hexec
  rw [hlook] at hexec
  dsimp only [seqVals] at hexec
  rcases hc : (forLoop name node st.id st.ctx vals).2.2 with _ | ⟨c, cs⟩
  · rw [hc] at hexec
    exact absurd hexec (by simp)
  · rw [hc] at hexec
    dsimp only at hexec
    have hinj := Except.ok.inj hexec
    have hst : St.mk (forLoop name node st.id st.ctx vals).2.1
        (forLoop name node st.id st.ctx vals).1 st.listeners = st' :=
      congrArg Prod.fst hinj
    rcases forLoop_spec name node vals st.id st.ctx with ⟨hs1, hs2⟩
    have hdisj : i = j ∨ name ++ natChars i ≠ name ++ natChars j := by
      by_cases hij : i = j
      · exact Or.inl hij
      · exact Or.inr (fun hk => hij (key_inj name hk))
    refine ⟨?_, ?_, forBinds_keys_nodup name vals st.id, hdisj, rfl⟩
    · rw [← hst]
      show (forLoop name node st.id st.ctx vals).1 = st.id + vals.length
      exact hs1
    · rw [← hst]
      show (forLoop name node st.id st.ctx vals).2.1
        = (forBinds name st.id vals).reverse ++ st.ctx
      exact hs2

/-- C8, witness: the amended key characterization at a two-element
expansion of variable Item over field Xs. -/
theorem c8_keys_witness :
    (St.mk [(gostr "Item1", Val.str (gostr "b")), (gostr "Item0", Val.str (gostr "a")),
        (gostr "Xs", Val.seq [Val.str (gostr "a"), Val.str (gostr "b")])] 2 []).id
      = (St.mk [(gostr "Xs", Val.seq [Val.str (gostr "a"), Val.str (gostr "b")])] 0 []).id
        + ([Val.str (gostr "a"), Val.str (gostr "b")] : List Val).length ∧
    (St.mk [(gostr "Item1", Val.str (gostr "b")), (gostr "Item0", Val.str (gostr "a")),
        (gostr "Xs", Val.seq [Val.str (gostr "a"), Val.str (gostr "b")])] 2 []).ctx
      = (forBinds (gostr "Item")
          (St.mk [(gostr "Xs", Val.seq [Val.str (gostr "a"), Val.str (gostr "b")])] 0 []).id
          [Val.str (gostr "a"), Val.str (gostr "b")]).reverse
        ++ (St.mk [(gostr "Xs", Val.seq [Val.str (gostr "a"), Val.str (gostr "b")])] 0 []).ctx ∧
    ((forBinds (gostr "Item")
        (St.mk [(gostr "Xs", Val.seq [Val.str (gostr "a"), Val.str (gostr "b")])] 0 []).id
        [Val.str (gostr "a"), Val.str (gostr "b")]).map Prod.fst).Nodup ∧
    ((3 : Nat) = 12 ∨ gostr "Item" ++ natChars 3 ≠ gostr "Item" ++ natChars 12) ∧
    (ctxKeysRes (execSibs extM 80 (St.mk ctxNest 0 []) tplNest)).dedup.length = 6 :=
  c8_keys_amended
    (St.mk [(gostr "Xs", Val.seq [Val.str (gostr "a"), Val.str (gostr "b")])] 0 [])
    (gostr "Item in Xs") (.elem (gostr "li") [] [])
    (gostr "Item") (gostr "Xs") [Val.str (gostr "a"), Val.str (gostr "b")]
    (St.mk [(gostr "Item1", Val.str (gostr "b")), (gostr "Item0", Val.str (gostr "a")),
        (gostr "Xs", Val.seq [Val.str (gostr "a"), Val.str (gostr "b")])] 2 [])
    [.elem (gostr "li") [] [], .elem (gostr "li") [] []] 3 12
    rfl rfl rfl

mutual
theorem c9aux_node (render : Ctx → GoStr → Except Err GoStr) (ctx : Ctx)
    (hrender : ∀ s, hasSub openPH s = false → render ctx s = .ok s) :
    ∀ (n : HNode), noPHNode n = true → executeText render ctx n = .ok n
  | .text s, h => by
    have hs : hasSub openPH s = false := by
      unfold noPHNode at h
      simpa using h
    unfold executeText
    by_cases ht : trimSpace s = []
    · rw [if_pos ht]
    · rw [if_neg ht, hrender s hs]
      rfl
  | .elem t a cs, h => by
    have hcs : noPHForest cs = true := by
      unfold noPHNode at h
      exact h
    unfold executeText
    rw [c9aux_list render ctx hrender cs hcs]
    rfl
theorem c9aux_list (render : Ctx → GoStr → Except Err GoStr) (ctx : Ctx)
    (hrender : ∀ s, hasSub openPH s = false → render ctx s = .ok s) :
    ∀ (ns : List HNode), noPHForest ns = true → executeTextList render ctx ns = .ok ns
  | [], _ => rfl
  | n :: ns, h => by
    have hn : noPHNode n = true ∧ noPHForest ns = true := by
      unfold noPHForest at h
      simpa using h
    unfold executeTextList
    rw [c9aux_node render ctx hrender n hn.1, c9aux_list render ctx hrender ns hn.2]
    rfl
end

theorem miniRender_clean (ctx : Ctx) : ∀ (s : GoStr), hasSub openPH s = false →
    miniRender ctx s = .ok s := by
  intro s
  unfold miniRender
  induction s with
  | nil => intro h; rfl
  | cons c s' ih =>
    intro h
    cases s' with
    | nil => rfl
    | cons d rest =>
      unfold hasSub at h
      rw [Bool.or_eq_false_iff] at h
      show miniRenderAux ctx none (c :: d :: rest) = .ok (c :: d :: rest)
      unfold miniRenderAux
      by_cases hc : c = lbChar
      · by_cases hd : d = lbChar
        · exfalso
          subst hc
          subst hd
          have := h.1
          simp [openPH, pre_of] at this
        · rw [if_neg (by simp [hd])]
          have hrest : miniRenderAux ctx none (d :: rest) = .ok (d :: rest) := ih h.2
          rw [hrest]
          rfl
      · rw [if_neg (by simp [hc])]
        have hrest : miniRenderAux ctx none (d :: rest) = .ok (d :: rest) := ih h.2
        rw [hrest]
        rfl

/-- C9: on a tree in which no text node contains a double-brace
placeholder, the text pass is the identity, provided the substitution
engine returns placeholder-free text unchanged (its boundary contract);
hence running the pass a second time over an already-rendered tree
leaves every node unchanged. -/
theorem c9_text_idempotent (render : Ctx → GoStr → Except Err GoStr) (ctx : Ctx)
    (hrender : ∀ s, hasSub openPH s = false → render ctx s = .ok s)
    (ns : List HNode) (h : noPHForest ns = true) :
    executeTextList render ctx ns = .ok ns :=
  c9aux_list render ctx hrender ns h

/-- C9, witness: the modelled substitution engine against a concrete
rendered tree without placeholders. -/
theorem c9_text_witness :
    executeTextList miniRender [] [.elem (gostr "p") [] [.text (gostr "done")]]
      = .ok [.elem (gostr "p") [] [.text (gostr "done")]] :=
  c9_text_idempotent miniRender [] (miniRender_clean [])
    [.elem (gostr "p") [] [.text (gostr "done")]] rfl

theorem bind_shape (sub : Option (List GoStr)) (key value : GoStr) (data : Ctx)
    (tag : GoStr) (A : List Attr) (cs : List HNode) (node1 : HNode)
    (h : executeAttrBind sub key value data (.elem tag A cs) = .ok node1) :
    ∃ app, node1 = .elem tag (A ++ app) cs := by
  unfold executeAttrBind at h
  rcases hl : ctxLookup data value with _ | v <;> rw [hl] at h
  · exact absurd h (by simp)
  · dsimp only at h
    split at h
    · exact ⟨[], by simpa using (Except.ok.inj h).symm⟩
    · split at h
      · exact ⟨[], by simpa using (Except.ok.inj h).symm⟩
      · refine ⟨[Attr.mk key (goFormat v)], ?_⟩
        have := (Except.ok.inj h).symm
        simpa [appendAttr] using this

theorem html_shape (ext : Boundary) (field : GoStr) (data : Ctx)
    (tag : GoStr) (A : List Attr) (cs : List HNode) (node1 : HNode)
    (h : executeAttrHtml ext field data (.elem tag A cs) = .ok node1) :
    ∃ app cs1, node1 = .elem tag (A ++ app) cs1 := by
  unfold executeAttrHtml at h
  rcases hl : ctxLookup data field with _ | v <;> rw [hl] at h
  · exact absurd h (by simp)
  · dsimp only at h
    split at h
    · rename_i s
      refine ⟨[], cs ++ ext.parseHTML s, ?_⟩
      have := (Except.ok.inj h).symm
      simpa [appendChildren] using this
    · exact absurd h (by simp)

theorem model_shape (st : St) (field : GoStr) (tag : GoStr) (A : List Attr)
    (cs : List HNode) (st1 : St) (node1 : HNode)
    (h : executeAttrModel st field (.elem tag A cs) = (st1, node1, none)) :
    ∃ app, node1 = .elem tag (A ++ app) cs := by
  unfold executeAttrModel at h
  dsimp only at h
  split at h
  · simp at h
  · rename_i x s hx
    refine ⟨[Attr.mk (gostr "input") field, Attr.mk (gostr "value") s], ?_⟩
    have h2 := (Prod.mk.inj (Prod.mk.inj h).2).1.symm
    simpa [appendAttr] using h2
  · simp at h

theorem executeAttr_cont (ext : Boundary) (st : St) (sub : Option (List GoStr)) (a : Attr)
    (tag : GoStr) (A : List Attr) (cs : List HNode) (st1 : St) (node1 : HNode)
    (h : executeAttr ext st (.elem tag A cs) sub a = .ok (.cont st1 node1)) :
    ∃ app cs1, node1 = .elem tag (A ++ app) cs1 := by
  unfold executeAttr at h
  dsimp only at h
  split_ifs at h with h1 h2 h3 h4 h5 h6
  · rcases hb : executeAttrBind sub
        (match goSplit colonTok a.key with | _ :: p :: _ => p | _ => []) a.val st.ctx
        (.elem tag A cs) with e | n <;> rw [hb] at h <;> simp [Except.map] at h
    rcases bind_shape sub _ a.val st.ctx tag A cs n hb with ⟨app, happ⟩
    exact ⟨app, cs, by rw [← h.2, happ]⟩
  · rcases hf : executeAttrFor st a.val (.elem tag A cs) with e | r <;> rw [hf] at h <;>
      simp [Except.map] at h
  · rcases hh : executeAttrHtml ext a.val st.ctx (.elem tag A cs) with e | n <;>
      rw [hh] at h <;> simp [Except.map] at h
    rcases html_shape ext a.val st.ctx tag A cs n hh with ⟨app, cs1, happ⟩
    exact ⟨app, cs1, by rw [← h.2, happ]⟩
  · unfold executeAttrIf at h
    split at h
    · simp at h
      exact ⟨[], cs, by rw [← h.2]; simp⟩
    · simp at h
  · split at h
    · rename_i st2 n2 hm
      simp at h
      rcases model_shape st a.val tag A cs st2 n2 hm with ⟨app, happ⟩
      exact ⟨app, cs, by rw [← h.2, happ]⟩
    · exact absurd h (by simp)
  · unfold executeAttrOn at h
    dsimp only at h
    simp at h
    refine ⟨[Attr.mk (match goSplit colonTok a.key with | _ :: p :: _ => p | _ => []) a.val],
      cs, ?_⟩
    rw [← h.2]
    simp [appendAttr]


theorem attrLoop_clean (ext : Boundary) : ∀ (f : Nat) (st : St) (node : HNode) (i : Nat)
    (st1 : St) (node1 : HNode),
    (∀ a ∈ (attrsOf node).take i, startsWith a.key vPre = false) →
    attrLoop ext f st node i = .ok (.completed st1 node1) →
    ∀ a ∈ attrsOf node1, startsWith a.key vPre = false := by
  intro f
  induction f with
  | zero =>
    intro st node i st1 node1 hpre hloop
    exact absurd hloop (by simp [attrLoop])
  | succ f ih =>
    intro st node i st1 node1 hpre hloop
    cases node with
    | text s =>
      have hred : attrLoop ext (f + 1) st (.text s) i
          = .ok (.completed st (.text s)) := rfl
      rw [hred] at hloop
      simp at hloop
      rw [← hloop.2]
      intro x hx
      simp [attrsOf] at hx
    | elem tag attrs cs =>
      have hred : attrLoop ext (f + 1) st (.elem tag attrs cs) i
          = (match attrs[i]? with
             | none => .ok (.completed st (.elem tag attrs cs))
             | some a =>
               if startsWith a.key vPre = true then
                 match executeAttr ext st (.elem tag (deleteAttr attrs i) cs) none a with
                 | .error e => .error e
                 | .ok (.cont st2 node2) => attrLoop ext f st2 node2 i
                 | .ok (.replaced st2 repl) => .ok (.replaced st2 repl)
               else attrLoop ext f st (.elem tag attrs cs) (i + 1)) := rfl
      rw [hred] at hloop
      rcases hgi : attrs[i]? with _ | a <;> rw [hgi] at hloop <;> dsimp only at hloop
      · simp at hloop
        rw [← hloop.2]
        intro x hx
        apply hpre x
        simp only [attrsOf] at hx ⊢
        rw [List.take_of_length_le (List.getElem?_eq_none_iff.1 hgi)]
        exact hx
      · by_cases hv : startsWith a.key vPre = true
        · rw [if_pos hv] at hloop
          rcases hea : executeAttr ext st (.elem tag (deleteAttr attrs i) cs) none a
              with e | r <;> rw [hea] at hloop
          · simp at hloop
          · cases r with
            | cont st2 node2 =>
              rcases executeAttr_cont ext st none a tag (deleteAttr attrs i) cs st2 node2 hea
                with ⟨app, cs1, hshape⟩
              apply ih st2 node2 i st1 node1 _ hloop
              rw [hshape]
              intro x hx
              simp only [attrsOf] at hx
              have hlen : i < attrs.length := by
                rcases List.getElem?_eq_some_iff.1 hgi with ⟨hl, _⟩
                exact hl
              have htake : ((deleteAttr attrs i ++ app).take i) = attrs.take i := by
                unfold deleteAttr
                rw [List.append_assoc]
                rw [List.take_left' (by rw [List.length_take]; omega)]
              rw [htake] at hx
              exact hpre x (by simpa [attrsOf] using hx)
            | replaced st2 repl =>
              simp at hloop
        · rw [if_neg hv] at hloop
          apply ih st (.elem tag attrs cs) (i + 1) st1 node1 _ hloop
          intro x hx
          simp only [attrsOf] at hx ⊢
          rw [List.take_succ] at hx
          rcases List.mem_append.1 hx with hx1 | hx2
          · exact hpre x (by simpa [attrsOf] using hx1)
          · rw [hgi] at hx2
            simp at hx2
            rw [hx2]
            simpa using hv

theorem execSibs_clean (ext : Boundary) : ∀ (f : Nat) (st : St) (ns : List HNode)
    (st' : St) (out : List HNode),
    execSibs ext f st ns = .ok (st', out) → cleanForest out = true := by
  intro f
  induction f with
  | zero =>
    intro st ns st' out h
    exact absurd h (by simp [execSibs])
  | succ f ih =>
    intro st ns st' out h
    cases ns with
    | nil =>
      have hred : execSibs ext (f + 1) st [] = .ok (st, []) := rfl
      rw [hred] at h
      simp at h
      rw [h.2]
      rfl
    | cons n rest =>
      cases n with
      | text s =>
        have hred : execSibs ext (f + 1) st (.text s :: rest)
            = (execSibs ext f st rest).map (fun r => (r.1, .text s :: r.2)) := rfl
        rw [hred] at h
        rcases hr : execSibs ext f st rest with e | ⟨st2, out2⟩ <;> rw [hr] at h <;>
          simp [Except.map] at h
        rw [← h.2]
        have hc := ih st rest st2 out2 hr
        unfold cleanForest cleanNode
        simpa using hc
      | elem tag attrs cs =>
        have hred : execSibs ext (f + 1) st (.elem tag attrs cs :: rest)
            = (match attrLoop ext f st (.elem tag (orderAttrs attrs) cs) 0 with
               | .error e => .error e
               | .ok (.replaced st1 repl) => execSibs ext f st1 (repl ++ rest)
               | .ok (.completed st1 node1) =>
                 match node1 with
                 | .text s => (execSibs ext f st1 rest).map (fun r => (r.1, .text s :: r.2))
                 | .elem t1 a1 c1 =>
                   match execSibs ext f st1 c1 with
                   | .error e => .error e
                   | .ok (st2, c2) =>
                     (execSibs ext f st2 rest).map
                       (fun r => (r.1, .elem t1 a1 c2 :: r.2))) := rfl
        rw [hred] at h
        rcases hl : attrLoop ext f st (.elem tag (orderAttrs attrs) cs) 0 with e | r <;>
          rw [hl] at h
        all_goals try dsimp only at h
        · simp at h
        · cases r with
          | replaced st1 repl =>
            dsimp only at h
            exact ih st1 (repl ++ rest) st' out h
          | completed st1 node1 =>
            have hattrs : ∀ a ∈ attrsOf node1, startsWith a.key vPre = false :=
              attrLoop_clean ext f st (.elem tag (orderAttrs attrs) cs) 0 st1 node1
                (by simp) hl
            cases node1 with
            | text s =>
              dsimp only at h
              rcases hr : execSibs ext f st1 rest with e | ⟨st2, out2⟩ <;> rw [hr] at h <;>
                simp [Except.map] at h
              rw [← h.2]
              have hc := ih st1 rest st2 out2 hr
              unfold cleanForest cleanNode
              simpa using hc
            | elem t1 a1 c1 =>
              dsimp only at h
              rcases hc1 : execSibs ext f st1 c1 with e | ⟨st2, c2⟩ <;> rw [hc1] at h
              all_goals try dsimp only at h
              · simp at h
              · rcases hr : execSibs ext f st2 rest with e | ⟨st3, out3⟩ <;> rw [hr] at h <;>
                  simp [Except.map] at h
                rw [← h.2]
                have hcc := ih st1 c1 st2 c2 hc1
                have hcr := ih st2 rest st3 out3 hr
                unfold cleanForest cleanNode
                rw [Bool.and_eq_true, Bool.and_eq_true]
                refine ⟨⟨?_, hcc⟩, hcr⟩
                rw [List.all_eq_true]
                intro x hx
                have := hattrs x (by simpa [attrsOf] using hx)
                simp [this]

mutual
theorem textClean_node (render : Ctx → GoStr → Except Err GoStr) (ctx : Ctx) :
    ∀ (n n1 : HNode), executeText render ctx n = .ok n1 → cleanNode n = true →
      cleanNode n1 = true
  | .text s, n1, h, _hc => by
    unfold executeText at h
    by_cases ht : trimSpace s = []
    · rw [if_pos ht] at h
      rw [← Except.ok.inj h]
      rfl
    · rw [if_neg ht] at h
      rcases hr : render ctx s with e | r <;> rw [hr] at h <;> simp [Except.map] at h
      rw [← h]
      rfl
  | .elem t a cs, n1, h, hc => by
    unfold executeText at h
    rcases hl : executeTextList render ctx cs with e | cs1 <;> rw [hl] at h <;>
      simp [Except.map] at h
    rw [← h]
    unfold cleanNode at hc ⊢
    rw [Bool.and_eq_true] at hc ⊢
    exact ⟨hc.1, textClean_list render ctx cs cs1 hl hc.2⟩
theorem textClean_list (render : Ctx → GoStr → Except Err GoStr) (ctx : Ctx) :
    ∀ (ns ns1 : List HNode), executeTextList render ctx ns = .ok ns1 →
      cleanForest ns = true → cleanForest ns1 = true
  | [], ns1, h, _hc => by
    rw [← Except.ok.inj h]
    rfl
  | n :: ns, ns1, h, hc => by
    unfold executeTextList at h
    rcases hn : executeText render ctx n with e | n1 <;> rw [hn] at h
    · simp at h
    · dsimp only at h
      rcases hl : executeTextList render ctx ns with e | ns2 <;> rw [hl] at h <;>
        simp [Except.map] at h
      rw [← h]
      unfold cleanForest at hc ⊢
      rw [Bool.and_eq_true] at hc ⊢
      exact ⟨textClean_node render ctx n n1 hn hc.1, textClean_list render ctx ns ns2 hl hc.2⟩
end

/-- C10: after a complete template execution (element pass and text
pass), no element of the output forest carries an attribute whose key
begins with the directive prefix: every directive attribute was either
consumed one at a time by the dispatcher, which deletes it before
executing it, or discarded by the attribute orderer before dispatch. -/
theorem c10_no_directive_attrs (ext : Boundary) (fuel : Nat) (nodes : List HNode)
    (data : Ctx) (st : St) (out : List HNode)
    (h : executeTmpl ext fuel nodes data = .ok (st, out)) :
    cleanForest out = true := by
  unfold executeTmpl at h
  rcases hs : execSibs ext fuel (St.mk data 0 []) nodes with e | ⟨st0, out0⟩ <;> rw [hs] at h
  · simp at h
  · dsimp only at h
    rcases ht : executeTextList ext.render st0.ctx out0 with e | out2 <;> rw [ht] at h <;>
      simp at h
    rw [← h.2]
    exact textClean_list ext.render st0.ctx out0 out2 ht
      (execSibs_clean ext fuel (St.mk data 0 []) nodes st0 out0 hs)

/-- C10, witness: a template with an if directive and a plain attribute
executes to a tree whose only attribute is the plain one. -/
theorem c10_no_directive_attrs_witness :
    cleanForest [HNode.elem (gostr "div") [Attr.mk (gostr "class") (gostr "x")]
      [.text (gostr "hi")]] = true :=
  c10_no_directive_attrs extM 20
    [.elem (gostr "div")
      [Attr.mk (gostr "v-if") (gostr "ok"), Attr.mk (gostr "class") (gostr "x")]
      [.text (gostr "hi")]]
    [(gostr "ok", Val.bool true)]
    (St.mk [(gostr "ok", Val.bool true)] 0 [])
    [HNode.elem (gostr "div") [Attr.mk (gostr "class") (gostr "x")] [.text (gostr "hi")]]
    rfl
